import Mathlib

/-!
Shallow embedding of the chronolog timeline core
(src/utils/time_utils.py and src/services/jira_service.py).

Timestamps are modelled as integer seconds since the Unix epoch; the
configured reporting time zone is UTC (src/config/config.py line 57), so
calendar operations such as replace(hour=h) and strftime are floor
operations on the day length 86400.  Durations computed with
total_seconds() / 60 are modelled as rationals.  Activity records are
Python dicts; the fields the core reads by name are modelled as explicit
structure fields, and the remaining key/value pairs of a record (task
type, ticket id, description, billable flag, raw payload) are modelled as
a single value `other` that the code only ever copies around without
inspecting.
-/

namespace Chronolog

/-- Config constant ACTIVITY_MERGE_THRESHOLD (minutes), config.py line 59. -/
def ACTIVITY_MERGE_THRESHOLD : ℚ := 2

/-- Config constant DEFAULT_WORKING_HOURS, config.py line 56. -/
def DEFAULT_WORKING_HOURS : ℤ × ℤ := (9, 17)

/-- One activity record.  `start_time` and `end_time` are UTC instants in
seconds; `duration_minutes` is the float field of the dict, as a rational;
`other` stands for every remaining key of the dict, copied wholesale and
never inspected by the core. -/
structure Interval where
  source : String
  title : String
  start_time : ℤ
  end_time : ℤ
  duration_minutes : ℚ
  other : ℕ
deriving DecidableEq

/-- The sort key used throughout: ascending start_time. -/
def startLE (a b : Interval) : Prop := a.start_time ≤ b.start_time

instance : DecidableRel startLE :=
  fun a b => inferInstanceAs (Decidable (a.start_time ≤ b.start_time))

instance : IsTotal Interval startLE :=
  ⟨fun a b => le_total a.start_time b.start_time⟩

instance : IsTrans Interval startLE :=
  ⟨fun _ _ _ hab hbc => le_trans hab hbc⟩

/-- filter_activities_by_date, time_utils.py lines 48 to 53. -/
def filter_activities_by_date (activities : List Interval)
    (start_date end_date : ℤ) : List Interval :=
  activities.filter
    (fun a => decide (start_date ≤ a.start_time) && decide (a.end_time ≤ end_date))

/-- Raw duration of one record in seconds, as computed by
(x end_time - x start_time).total_seconds(). -/
def durSec (a : Interval) : ℤ := a.end_time - a.start_time

/-- The merge condition of time_utils.py lines 84 and 85. -/
def shouldMerge (cur nxt : Interval) : Prop :=
  nxt.start_time ≤ cur.end_time ∨
    ((nxt.start_time - cur.end_time : ℤ) : ℚ) / 60 ≤ ACTIVITY_MERGE_THRESHOLD

instance (cur nxt : Interval) : Decidable (shouldMerge cur nxt) := by
  unfold shouldMerge; infer_instance

/-- The merged record built in time_utils.py lines 87 to 109: joined
source and title, min start, max end, non positional fields from the
record with the longer raw duration (the else branch of line 102 picks
`next` on ties), and duration_minutes recomputed from the merged bounds. -/
def mergeTwo (cur nxt : Interval) : Interval :=
  { source := cur.source ++ "," ++ nxt.source
    title := cur.title ++ "; " ++ nxt.title
    start_time := min cur.start_time nxt.start_time
    end_time := max cur.end_time nxt.end_time
    duration_minutes :=
      ((max cur.end_time nxt.end_time - min cur.start_time nxt.start_time : ℤ) : ℚ) / 60
    other := (if durSec cur > durSec nxt then cur else nxt).other }

/-- The left to right scan of time_utils.py lines 83 to 117, with the
accumulator `cur` playing the role of the `current` variable. -/
def mergeScan : Interval → List Interval → List Interval
  | cur, [] => [cur]
  | cur, nxt :: rest =>
    if shouldMerge cur nxt then mergeScan (mergeTwo cur nxt) rest
    else cur :: mergeScan nxt rest

/-- Dispatch on the sorted list: empty input returns empty, otherwise the
scan starts from the first element (time_utils.py lines 76 to 81). -/
def mergeSorted : List Interval → List Interval
  | [] => []
  | a :: rest => mergeScan a rest

/-- merge_overlapping_activities, time_utils.py lines 55 to 117. -/
def merge_overlapping_activities (activities : List Interval) : List Interval :=
  mergeSorted (List.insertionSort startLE activities)

/-- prev_end.replace(hour := h, minute 0, second 0, microsecond 0) for a
UTC instant: floor to the calendar day, then h hours. -/
def dayHour (t h : ℤ) : ℤ := Int.ediv t 86400 * 86400 + h * 3600

/-- The synthesized gap record of time_utils.py lines 169 to 179.  Its
fixed annotation fields (task type Unknown, ticket unknown, description
Untracked time, billable False) live in the opaque `other` slot, encoded
as 0. -/
def gapInterval (gs ge : ℤ) (gm : ℚ) : Interval :=
  { source := "time_gap"
    title := "Unknown Activity"
    start_time := gs
    end_time := ge
    duration_minutes := gm
    other := 0 }

/-- The loop of time_utils.py lines 145 to 182: `prev` is the previous
element of the sorted input (not of the output), a gap record is inserted
when both the raw gap and the gap clipped to the working window of the
day of prev.end_time reach the minimum size. -/
def fillScan (m : ℚ) (wsh weh : ℤ) : Interval → List Interval → List Interval
  | _, [] => []
  | prev, curr :: rest =>
    if m ≤ ((curr.start_time - prev.end_time : ℤ) : ℚ) / 60 then
      if m ≤ ((min curr.start_time (dayHour prev.end_time weh) -
               max prev.end_time (dayHour prev.end_time wsh) : ℤ) : ℚ) / 60 then
        gapInterval (max prev.end_time (dayHour prev.end_time wsh))
            (min curr.start_time (dayHour prev.end_time weh))
            (((min curr.start_time (dayHour prev.end_time weh) -
               max prev.end_time (dayHour prev.end_time wsh) : ℤ) : ℚ) / 60)
          :: curr :: fillScan m wsh weh curr rest
      else curr :: fillScan m wsh weh curr rest
    else curr :: fillScan m wsh weh curr rest

/-- The sorted phase of fill_time_gaps: first element kept, then the scan. -/
def fillSorted (m : ℚ) (wsh weh : ℤ) : List Interval → List Interval
  | [] => []
  | a :: rest => a :: fillScan m wsh weh a rest

/-- fill_time_gaps, time_utils.py lines 119 to 182.  Inputs with fewer
than two elements are returned unchanged (line 131). -/
def fill_time_gaps (activities : List Interval) (min_gap_minutes : ℚ)
    (working_hours : ℤ × ℤ) : List Interval :=
  if activities.length < 2 then activities
  else fillSorted min_gap_minutes working_hours.1 working_hours.2
    (List.insertionSort startLE activities)

/-- Day number of a UTC instant (floor division by 86400). -/
def dayNum (t : ℤ) : ℤ := Int.ediv t 86400

/-- Proleptic Gregorian civil date (year, month, day) of an epoch day
number, the standard days to civil conversion used by strftime. -/
def civilFromDays (z0 : ℤ) : ℤ × ℤ × ℤ :=
  let z := z0 + 719468
  let era := Int.ediv z 146097
  let doe := z - era * 146097
  let yoe := Int.ediv (doe - Int.ediv doe 1460 + Int.ediv doe 36524 - Int.ediv doe 146096) 365
  let doy := doe - (365 * yoe + Int.ediv yoe 4 - Int.ediv yoe 100)
  let mp := Int.ediv (5 * doy + 2) 153
  let d := doy - Int.ediv (153 * mp + 2) 5 + 1
  let m := mp + (if mp < 10 then 3 else -9)
  (yoe + era * 400 + (if m ≤ 2 then 1 else 0), m, d)

/-- Two digit zero padded field of a date string. -/
def pad2 (n : ℤ) : String := (if n < 10 then "0" else "") ++ n.toNat.repr

/-- strftime with format YYYY-MM-DD of a UTC instant (the configured
reporting time zone is UTC). -/
def dayStr (t : ℤ) : String :=
  (civilFromDays (dayNum t)).1.toNat.repr ++ "-" ++
    pad2 (civilFromDays (dayNum t)).2.1 ++ "-" ++ pad2 (civilFromDays (dayNum t)).2.2

/-- Insertion into the day dict of group_activities_by_day: Python dicts
keep first insertion order of keys, and appending to an existing key
keeps its position. -/
def addDay (days : List (String × List Interval)) (k : String) (a : Interval) :
    List (String × List Interval) :=
  match days with
  | [] => [(k, [a])]
  | (k', l) :: rest =>
    if k' = k then (k', l ++ [a]) :: rest else (k', l) :: addDay rest k a

/-- group_activities_by_day, time_utils.py lines 184 to 201: bucket by
the YYYY-MM-DD day string of start_time, then sort each bucket by
start_time. -/
def group_activities_by_day (activities : List Interval) :
    List (String × List Interval) :=
  (activities.foldl (fun d a => addDay d (dayStr a.start_time) a) []).map
    (fun p => (p.1, List.insertionSort startLE p.2))

/-- One time entry as consumed by submit_time_entries: the dict keys the
code reads through .get, with absent keys as none. -/
structure TimeEntry where
  jira_issue : Option String
  duration_minutes : ℚ
  description : Option String
  start_time : Option ℤ
  other : ℕ
deriving DecidableEq

/-- The results dict of submit_time_entries; errors holds the entries
whose submission failed, in submission order. -/
structure SubmitResults where
  success : ℕ
  error : ℕ
  skipped : ℕ
  errors : List TimeEntry

/-- Python int() on a rational: truncation toward zero. -/
def intTrunc (q : ℚ) : ℤ := Int.tdiv q.num (q.den : ℤ)

/-- submit_time_entries, jira_service.py lines 157 to 213.  The network
call log_work is modelled by the oracle logOk; the second component of
the result is the list of entries for which log_work was invoked, in
order.  The first skip branch models the Python falsy test
not entry.get(jira_issue), which holds for an absent key and for an
empty string, together with the sentinel test == unknown. -/
def submit_time_entries (logOk : TimeEntry → Bool) :
    List TimeEntry → SubmitResults × List TimeEntry
  | [] => ({ success := 0, error := 0, skipped := 0, errors := [] }, [])
  | e :: rest =>
    let r := submit_time_entries logOk rest
    if e.jira_issue = none ∨ e.jira_issue = some "" ∨ e.jira_issue = some "unknown" then
      ({ r.1 with skipped := r.1.skipped + 1 }, r.2)
    else if intTrunc (e.duration_minutes * 60) < 60 then
      ({ r.1 with skipped := r.1.skipped + 1 }, r.2)
    else if logOk e then
      ({ r.1 with success := r.1.success + 1 }, e :: r.2)
    else
      ({ r.1 with error := r.1.error + 1, errors := e :: r.1.errors }, e :: r.2)

/-- The exclusion predicate the code actually applies before submitting. -/
def entrySkipped (e : TimeEntry) : Prop :=
  e.jira_issue = none ∨ e.jira_issue = some "" ∨ e.jira_issue = some "unknown" ∨
    intTrunc (e.duration_minutes * 60) < 60

instance (e : TimeEntry) : Decidable (entrySkipped e) := by
  unfold entrySkipped; infer_instance

/-- Minimum start_time of a non empty list (0 on the empty list, which is
never used under the non emptiness hypothesis). -/
def minStart : List Interval → ℤ
  | [] => 0
  | a :: t => t.foldl (fun z x => min z x.start_time) a.start_time

/-- Maximum end_time of a non empty list. -/
def maxEnd : List Interval → ℤ
  | [] => 0
  | a :: t => t.foldl (fun z x => max z x.end_time) a.end_time

/-! ### Helper lemmas about the merge scan -/

theorem mergeTwo_start (cur nxt : Interval) :
    (mergeTwo cur nxt).start_time = min cur.start_time nxt.start_time := rfl

theorem mergeTwo_end (cur nxt : Interval) :
    (mergeTwo cur nxt).end_time = max cur.end_time nxt.end_time := rfl

theorem mergeScan_nil (cur : Interval) : mergeScan cur [] = [cur] := rfl

theorem mergeScan_cons (cur nxt : Interval) (rest : List Interval) :
    mergeScan cur (nxt :: rest) =
      if shouldMerge cur nxt then mergeScan (mergeTwo cur nxt) rest
      else cur :: mergeScan nxt rest := rfl

theorem mergeScan_ne_nil (l : List Interval) : ∀ cur : Interval, mergeScan cur l ≠ [] := by
  induction l with
  | nil => intro cur; simp [mergeScan_nil]
  | cons nxt rest ih =>
    intro cur
    rw [mergeScan_cons]
    by_cases hm : shouldMerge cur nxt
    · rw [if_pos hm]; exact ih _
    · rw [if_neg hm]; simp

theorem mergeScan_length (l : List Interval) : ∀ cur : Interval,
    (mergeScan cur l).length ≤ l.length + 1 := by
  induction l with
  | nil => intro cur; simp [mergeScan_nil]
  | cons nxt rest ih =>
    intro cur
    rw [mergeScan_cons]
    by_cases hm : shouldMerge cur nxt
    · rw [if_pos hm]
      exact le_trans (ih _) (by simp)
    · rw [if_neg hm]
      simpa using Nat.add_le_add_right (ih nxt) 1

theorem mergeScan_head (l : List Interval) : ∀ cur : Interval,
    (∀ x ∈ l, cur.start_time ≤ x.start_time) →
    ∃ h t, mergeScan cur l = h :: t ∧ h.start_time = cur.start_time := by
  induction l with
  | nil => intro cur _; exact ⟨cur, [], rfl, rfl⟩
  | cons nxt rest ih =>
    intro cur hlb
    by_cases hm : shouldMerge cur nxt
    · have hlb2 : ∀ x ∈ rest, (mergeTwo cur nxt).start_time ≤ x.start_time := by
        intro x hx
        rw [mergeTwo_start]
        exact le_trans (min_le_left _ _) (hlb x (List.mem_cons_of_mem _ hx))
      obtain ⟨h, t, heq, hst⟩ := ih (mergeTwo cur nxt) hlb2
      refine ⟨h, t, ?_, ?_⟩
      · rw [mergeScan_cons, if_pos hm]; exact heq
      · rw [hst, mergeTwo_start]
        exact min_eq_left (hlb nxt (List.mem_cons_self _ _))
    · exact ⟨cur, mergeScan nxt rest, by rw [mergeScan_cons, if_neg hm], rfl⟩

theorem mergeScan_start_lb (l : List Interval) : ∀ cur : Interval,
    List.Pairwise startLE l → (∀ x ∈ l, cur.start_time ≤ x.start_time) →
    ∀ y ∈ mergeScan cur l, cur.start_time ≤ y.start_time := by
  induction l with
  | nil =>
    intro cur _ _ y hy
    rw [mergeScan_nil, List.mem_singleton] at hy
    exact hy ▸ le_refl _
  | cons nxt rest ih =>
    intro cur hp hlb y hy
    obtain ⟨hhead, htail⟩ := List.pairwise_cons.mp hp
    by_cases hm : shouldMerge cur nxt
    · rw [mergeScan_cons, if_pos hm] at hy
      have hlb2 : ∀ x ∈ rest, (mergeTwo cur nxt).start_time ≤ x.start_time := by
        intro x hx
        rw [mergeTwo_start]
        exact le_trans (min_le_left _ _) (hlb x (List.mem_cons_of_mem _ hx))
      have hcur : cur.start_time ≤ (mergeTwo cur nxt).start_time := by
        rw [mergeTwo_start]
        exact le_min (le_refl _) (hlb nxt (List.mem_cons_self _ _))
      exact le_trans hcur (ih (mergeTwo cur nxt) htail hlb2 y hy)
    · rw [mergeScan_cons, if_neg hm] at hy
      rcases List.mem_cons.mp hy with h | h
      · exact h ▸ le_refl _
      · exact le_trans (hlb nxt (List.mem_cons_self _ _)) (ih nxt htail hhead y h)

theorem mergeScan_sorted (l : List Interval) : ∀ cur : Interval,
    List.Pairwise startLE l → (∀ x ∈ l, cur.start_time ≤ x.start_time) →
    List.Pairwise startLE (mergeScan cur l) := by
  induction l with
  | nil => intro cur _ _; rw [mergeScan_nil]; exact List.pairwise_singleton _ _
  | cons nxt rest ih =>
    intro cur hp hlb
    obtain ⟨hhead, htail⟩ := List.pairwise_cons.mp hp
    by_cases hm : shouldMerge cur nxt
    · rw [mergeScan_cons, if_pos hm]
      refine ih (mergeTwo cur nxt) htail ?_
      intro x hx
      rw [mergeTwo_start]
      exact le_trans (min_le_left _ _) (hlb x (List.mem_cons_of_mem _ hx))
    · rw [mergeScan_cons, if_neg hm]
      refine List.pairwise_cons.mpr ⟨?_, ih nxt htail hhead⟩
      intro y hy
      exact le_trans (hlb nxt (List.mem_cons_self _ _))
        (mergeScan_start_lb rest nxt htail hhead y hy)

theorem mergeScan_chain (l : List Interval) : ∀ cur : Interval,
    List.Pairwise startLE l → (∀ x ∈ l, cur.start_time ≤ x.start_time) →
    List.Chain' (fun a b => ¬ shouldMerge a b) (mergeScan cur l) := by
  induction l with
  | nil => intro cur _ _; rw [mergeScan_nil]; exact List.chain'_singleton _
  | cons nxt rest ih =>
    intro cur hp hlb
    obtain ⟨hhead, htail⟩ := List.pairwise_cons.mp hp
    by_cases hm : shouldMerge cur nxt
    · rw [mergeScan_cons, if_pos hm]
      refine ih (mergeTwo cur nxt) htail ?_
      intro x hx
      rw [mergeTwo_start]
      exact le_trans (min_le_left _ _) (hlb x (List.mem_cons_of_mem _ hx))
    · rw [mergeScan_cons, if_neg hm]
      obtain ⟨h, t, heq, hst⟩ := mergeScan_head rest nxt hhead
      rw [heq]
      refine List.chain'_cons.mpr ⟨?_, heq ▸ ih nxt htail hhead⟩
      intro hc
      apply hm
      unfold shouldMerge at hc ⊢
      rw [hst] at hc
      exact hc

theorem mergeScan_of_chain (l : List Interval) : ∀ cur : Interval,
    List.Chain' (fun a b => ¬ shouldMerge a b) (cur :: l) → mergeScan cur l = cur :: l := by
  induction l with
  | nil => intro cur _; exact mergeScan_nil cur
  | cons nxt rest ih =>
    intro cur hc
    obtain ⟨hR, hc'⟩ := List.chain'_cons.mp hc
    rw [mergeScan_cons, if_neg hR, ih nxt hc']

theorem mergeScan_all (P : Interval → Prop) (hP : ∀ a b : Interval, P (mergeTwo a b))
    (l : List Interval) : ∀ cur : Interval, P cur → (∀ x ∈ l, P x) →
    ∀ y ∈ mergeScan cur l, P y := by
  induction l with
  | nil =>
    intro cur hcur _ y hy
    rw [mergeScan_nil, List.mem_singleton] at hy
    exact hy ▸ hcur
  | cons nxt rest ih =>
    intro cur hcur hall y hy
    by_cases hm : shouldMerge cur nxt
    · rw [mergeScan_cons, if_pos hm] at hy
      exact ih (mergeTwo cur nxt) (hP cur nxt) (fun x hx => hall x (List.mem_cons_of_mem _ hx)) y hy
    · rw [mergeScan_cons, if_neg hm] at hy
      rcases List.mem_cons.mp hy with h | h
      · exact h ▸ hcur
      · exact ih nxt (hall nxt (List.mem_cons_self _ _))
          (fun x hx => hall x (List.mem_cons_of_mem _ hx)) y h

theorem merge_sorted_aux (X : List Interval) :
    List.Sorted startLE (merge_overlapping_activities X) := by
  unfold merge_overlapping_activities
  have hs := List.sorted_insertionSort startLE X
  cases h : List.insertionSort startLE X with
  | nil => exact List.sorted_nil
  | cons a rest =>
    rw [h] at hs
    obtain ⟨hhead, htail⟩ := List.sorted_cons.mp hs
    exact mergeScan_sorted rest a htail hhead

theorem merge_chain_aux (X : List Interval) :
    List.Chain' (fun a b => ¬ shouldMerge a b) (merge_overlapping_activities X) := by
  unfold merge_overlapping_activities
  have hs := List.sorted_insertionSort startLE X
  cases h : List.insertionSort startLE X with
  | nil => exact List.chain'_nil
  | cons a rest =>
    rw [h] at hs
    obtain ⟨hhead, htail⟩ := List.sorted_cons.mp hs
    exact mergeScan_chain rest a htail hhead

theorem merge_length_aux (X : List Interval) :
    (merge_overlapping_activities X).length ≤ X.length := by
  unfold merge_overlapping_activities
  have hlen := List.length_insertionSort startLE X
  cases h : List.insertionSort startLE X with
  | nil => simp [mergeSorted]
  | cons a rest =>
    rw [h] at hlen
    calc (mergeSorted (a :: rest)).length ≤ rest.length + 1 := mergeScan_length rest a
    _ = X.length := by rw [← hlen]; rfl

/-! ### Concrete records used by counterexamples and witnesses -/

/-- Record A of the donor tie counterexample: 60 seconds long, payload 1. -/
def c1a : Interval := ⟨"A", "ta", 0, 60, 1, 1⟩

/-- Record B of the donor tie counterexample: also 60 seconds long,
overlapping A, payload 2. -/
def c1b : Interval := ⟨"B", "tb", 30, 90, 1, 2⟩

/-- A record whose stored duration_minutes (999) disagrees with its
bounds (600 seconds, i.e. 10 minutes). -/
def a999 : Interval := ⟨"s", "t", 0, 600, 999, 0⟩

/-- A lone valid record used by several witnesses. -/
def wit3 : Interval := ⟨"m", "w", 0, 60, 1, 9⟩

/-- Claim C1 (corrected): the code picks the donor with
donor = current if current_duration > next_duration else next, so on
EQUAL raw durations the donor of the non positional fields is next, not
current as the claim states.  Here c1a and c1b have equal raw durations
(60 seconds each) and the merged record carries the payload of c1b
(other = 2), not of c1a (other = 1). -/
theorem merge_tie_donor_counterexample :
    merge_overlapping_activities [c1a, c1b] = [⟨"A,B", "ta; tb", 0, 90, 3/2, 2⟩] ∧
    durSec c1a = durSec c1b ∧ c1a.other = 1 ∧ c1b.other = 2 := by
  refine ⟨?_, by decide, by decide, by decide⟩
  simp only [merge_overlapping_activities, List.insertionSort, List.orderedInsert, startLE,
    mergeSorted, c1a, c1b]
  norm_num
  simp only [mergeScan]
  norm_num [shouldMerge, ACTIVITY_MERGE_THRESHOLD, mergeTwo, durSec]
  exact ⟨by decide, by decide⟩

/-- Claim C1 (amended): when two records are merged, the non positional
fields come from current only when its raw duration is strictly greater
than the raw duration of next; otherwise (including ties) they come from
next. -/
theorem merge_donor_rule_amended : ∀ cur nxt : Interval,
    (durSec cur > durSec nxt → (mergeTwo cur nxt).other = cur.other) ∧
    (¬ durSec cur > durSec nxt → (mergeTwo cur nxt).other = nxt.other) := by
  intro cur nxt
  constructor
  · intro h
    simp only [mergeTwo]
    rw [if_pos h]
  · intro h
    simp only [mergeTwo]
    rw [if_neg h]

/-- Donor record with the longer raw duration (100 seconds). -/
def w1d : Interval := ⟨"X", "x", 0, 100, 1, 11⟩

/-- Donor record with the shorter raw duration (50 seconds). -/
def w2d : Interval := ⟨"Y", "y", 0, 50, 1, 22⟩

/-- Witness for the amended donor rule at concrete inputs, in both the
strictly greater case and the not greater case. -/
theorem merge_donor_rule_amended_witness :
    (mergeTwo w1d w2d).other = w1d.other ∧ (mergeTwo w2d w1d).other = w1d.other :=
  ⟨(merge_donor_rule_amended w1d w2d).1 (by decide),
   (merge_donor_rule_amended w2d w1d).2 (by decide)⟩

/-- Claim C2 (corrected): duration_minutes is recomputed only for
records produced by an actual merge; a record passed through unmerged
keeps its input duration_minutes.  The record a999 has stored duration
999 although its bounds span 10 minutes, and the merge output carries
999 unchanged. -/
theorem merge_duration_passthrough_counterexample :
    merge_overlapping_activities [a999] = [a999] ∧
    ¬ (a999 : Interval).duration_minutes =
        ((a999.end_time - a999.start_time : ℤ) : ℚ) / 60 := by
  constructor
  · decide
  · simp only [a999]
    norm_num

/-- Claim C2 (amended): every record in the merge output is either one
of the input records, passed through unchanged, or a merged record whose
duration_minutes equals (end_time - start_time) in minutes. -/
theorem merge_duration_recompute_amended : ∀ X : List Interval,
    ∀ y ∈ merge_overlapping_activities X,
      y ∈ X ∨ y.duration_minutes = ((y.end_time - y.start_time : ℤ) : ℚ) / 60 := by
  intro X y hy
  unfold merge_overlapping_activities at hy
  cases h : List.insertionSort startLE X with
  | nil => rw [h] at hy; exact absurd hy (List.not_mem_nil y)
  | cons a rest =>
    rw [h] at hy
    refine mergeScan_all
      (fun z => z ∈ X ∨ z.duration_minutes = ((z.end_time - z.start_time : ℤ) : ℚ) / 60)
      (fun a b => Or.inr rfl) rest a ?_ ?_ y hy
    · left
      have : a ∈ List.insertionSort startLE X := by rw [h]; exact List.mem_cons_self a rest
      exact (List.mem_insertionSort startLE).mp this
    · intro x hx
      left
      have : x ∈ List.insertionSort startLE X := by rw [h]; exact List.mem_cons_of_mem a hx
      exact (List.mem_insertionSort startLE).mp this

/-- Witness for the amended duration claim at a concrete input. -/
theorem merge_duration_recompute_amended_witness :
    a999 ∈ ([a999] : List Interval) ∨
      (a999 : Interval).duration_minutes =
        ((a999.end_time - a999.start_time : ℤ) : ℚ) / 60 :=
  merge_duration_recompute_amended [a999] a999 (by decide)

/-- Claim C3 (confirmed): on any input of valid records the merge output
is sorted ascending by start_time, no longer than the input, and every
adjacent output pair is separated by strictly more than the merge
threshold, hence each end_time is at most the next start_time minus the
threshold. -/
theorem merge_output_invariant : ∀ X : List Interval,
    (∀ a ∈ X, a.start_time ≤ a.end_time) →
    List.Sorted startLE (merge_overlapping_activities X) ∧
    (merge_overlapping_activities X).length ≤ X.length ∧
    List.Chain' (fun a b =>
        (a.end_time : ℚ) ≤ (b.start_time : ℚ) - ACTIVITY_MERGE_THRESHOLD * 60)
      (merge_overlapping_activities X) := by
  intro X _
  refine ⟨merge_sorted_aux X, merge_length_aux X, (merge_chain_aux X).imp ?_⟩
  intro a b hab
  unfold shouldMerge at hab
  push_neg at hab
  obtain ⟨h1, h2⟩ := hab
  rw [lt_div_iff₀ (by norm_num : (0 : ℚ) < 60)] at h2
  push_cast at h2 ⊢
  linarith

/-- Witness for the merge output invariant at a concrete input. -/
theorem merge_output_invariant_witness :
    List.Sorted startLE (merge_overlapping_activities [wit3]) ∧
    (merge_overlapping_activities [wit3]).length ≤ ([wit3] : List Interval).length ∧
    List.Chain' (fun a b =>
        (a.end_time : ℚ) ≤ (b.start_time : ℚ) - ACTIVITY_MERGE_THRESHOLD * 60)
      (merge_overlapping_activities [wit3]) :=
  merge_output_invariant [wit3] (by decide)

/-- Claim C4 (confirmed): the merge is idempotent on every finite input. -/
theorem merge_idempotent : ∀ X : List Interval,
    merge_overlapping_activities (merge_overlapping_activities X) =
      merge_overlapping_activities X := by
  intro X
  have hs := merge_sorted_aux X
  have hc := merge_chain_aux X
  rw [show merge_overlapping_activities (merge_overlapping_activities X) =
      mergeSorted (List.insertionSort startLE (merge_overlapping_activities X)) from rfl,
    hs.insertionSort_eq]
  cases h : merge_overlapping_activities X with
  | nil => rfl
  | cons a t =>
    rw [h] at hc
    exact mergeScan_of_chain t a hc

/-! ### Folded minimum and maximum, for the span conservation claim -/

theorem foldl_min_pull (m : List ℤ) : ∀ z w : ℤ,
    m.foldl min (min z w) = min z (m.foldl min w) := by
  induction m with
  | nil => intro z w; rfl
  | cons c m ih =>
    intro z w
    simp only [List.foldl_cons]
    rw [min_assoc, ih]

theorem foldl_max_pull (m : List ℤ) : ∀ z w : ℤ,
    m.foldl max (max z w) = max z (m.foldl max w) := by
  induction m with
  | nil => intro z w; rfl
  | cons c m ih =>
    intro z w
    simp only [List.foldl_cons]
    rw [max_assoc, ih]

theorem foldl_min_perm {l l' : List ℤ} (h : l.Perm l') : ∀ z : ℤ,
    l.foldl min z = l'.foldl min z := by
  induction h with
  | nil => intro z; rfl
  | cons x _ ih => intro z; simp only [List.foldl_cons]; exact ih _
  | swap x y l => intro z; simp only [List.foldl_cons]; rw [min_right_comm]
  | trans _ _ ih1 ih2 => intro z; rw [ih1 z, ih2 z]

theorem foldl_max_perm {l l' : List ℤ} (h : l.Perm l') : ∀ z : ℤ,
    l.foldl max z = l'.foldl max z := by
  induction h with
  | nil => intro z; rfl
  | cons x _ ih => intro z; simp only [List.foldl_cons]; exact ih _
  | swap x y l => intro z; simp only [List.foldl_cons]; rw [sup_right_comm]
  | trans _ _ ih1 ih2 => intro z; rw [ih1 z, ih2 z]

theorem mergeScan_foldl_min (l : List Interval) : ∀ (cur : Interval) (z : ℤ),
    ((mergeScan cur l).map (fun x => x.start_time)).foldl min z =
      ((cur :: l).map (fun x => x.start_time)).foldl min z := by
  induction l with
  | nil => intro cur z; rfl
  | cons nxt rest ih =>
    intro cur z
    by_cases hm : shouldMerge cur nxt
    · rw [mergeScan_cons, if_pos hm, ih]
      simp only [List.map_cons, List.foldl_cons, mergeTwo_start]
      rw [min_assoc]
    · rw [mergeScan_cons, if_neg hm]
      simp only [List.map_cons, List.foldl_cons]
      rw [ih]
      simp only [List.map_cons, List.foldl_cons]

theorem mergeScan_foldl_max (l : List Interval) : ∀ (cur : Interval) (z : ℤ),
    ((mergeScan cur l).map (fun x => x.end_time)).foldl max z =
      ((cur :: l).map (fun x => x.end_time)).foldl max z := by
  induction l with
  | nil => intro cur z; rfl
  | cons nxt rest ih =>
    intro cur z
    by_cases hm : shouldMerge cur nxt
    · rw [mergeScan_cons, if_pos hm, ih]
      simp only [List.map_cons, List.foldl_cons, mergeTwo_end]
      rw [max_assoc]
    · rw [mergeScan_cons, if_neg hm]
      simp only [List.map_cons, List.foldl_cons]
      rw [ih]
      simp only [List.map_cons, List.foldl_cons]

theorem minStart_cons_foldl (h : Interval) (t : List Interval) (z : ℤ) :
    ((h :: t).map (fun x => x.start_time)).foldl min z = min z (minStart (h :: t)) := by
  simp only [List.map_cons, List.foldl_cons, minStart]
  rw [show t.foldl (fun z x => min z x.start_time) h.start_time =
      (t.map (fun x => x.start_time)).foldl min h.start_time from (List.foldl_map _ _ _ _).symm]
  exact foldl_min_pull _ z h.start_time

theorem maxEnd_cons_foldl (h : Interval) (t : List Interval) (z : ℤ) :
    ((h :: t).map (fun x => x.end_time)).foldl max z = max z (maxEnd (h :: t)) := by
  simp only [List.map_cons, List.foldl_cons, maxEnd]
  rw [show t.foldl (fun z x => max z x.end_time) h.end_time =
      (t.map (fun x => x.end_time)).foldl max h.end_time from (List.foldl_map _ _ _ _).symm]
  exact foldl_max_pull _ z h.end_time

theorem eq_of_forall_min (A B : ℤ) (h : ∀ z : ℤ, min z A = min z B) : A = B := by
  have h1 := h A
  have h2 := h B
  rw [min_self] at h1
  rw [min_self] at h2
  calc A = min A B := h1
  _ = min B A := min_comm _ _
  _ = B := h2

theorem eq_of_forall_max (A B : ℤ) (h : ∀ z : ℤ, max z A = max z B) : A = B := by
  have h1 := h A
  have h2 := h B
  rw [max_self] at h1
  rw [max_self] at h2
  calc A = max A B := h1
  _ = max B A := max_comm _ _
  _ = B := h2

/-- Claim C5 (confirmed): the covered time span, from the minimum
start_time to the maximum end_time, is unchanged by the merge for every
non empty input of valid records. -/
theorem merge_span_conservation : ∀ X : List Interval, X ≠ [] →
    (∀ a ∈ X, a.start_time ≤ a.end_time) →
    minStart (merge_overlapping_activities X) = minStart X ∧
    maxEnd (merge_overlapping_activities X) = maxEnd X := by
  intro X hne _
  obtain ⟨x, xs, hXeq⟩ : ∃ x xs, X = x :: xs := by
    cases X with
    | nil => exact absurd rfl hne
    | cons x xs => exact ⟨x, xs, rfl⟩
  have hperm : (List.insertionSort startLE X).Perm X := List.perm_insertionSort startLE X
  cases h : List.insertionSort startLE X with
  | nil =>
    rw [h] at hperm
    rw [hXeq] at hperm
    exact absurd hperm.symm (by simp)
  | cons a rest =>
    have hmerge : merge_overlapping_activities X = mergeScan a rest := by
      unfold merge_overlapping_activities
      rw [h]
      rfl
    obtain ⟨hh, ht, hmeq⟩ : ∃ hh ht, merge_overlapping_activities X = hh :: ht := by
      rw [hmerge]
      cases hsc : mergeScan a rest with
      | nil => exact absurd hsc (mergeScan_ne_nil rest a)
      | cons hh ht => exact ⟨hh, ht, rfl⟩
    have key_min : ∀ z : ℤ,
        ((merge_overlapping_activities X).map (fun x => x.start_time)).foldl min z =
          (X.map (fun x => x.start_time)).foldl min z := by
      intro z
      rw [hmerge, mergeScan_foldl_min]
      rw [show (a :: rest) = List.insertionSort startLE X from h.symm]
      exact foldl_min_perm (hperm.map _) z
    have key_max : ∀ z : ℤ,
        ((merge_overlapping_activities X).map (fun x => x.end_time)).foldl max z =
          (X.map (fun x => x.end_time)).foldl max z := by
      intro z
      rw [hmerge, mergeScan_foldl_max]
      rw [show (a :: rest) = List.insertionSort startLE X from h.symm]
      exact foldl_max_perm (hperm.map _) z
    constructor
    · apply eq_of_forall_min
      intro z
      calc min z (minStart (merge_overlapping_activities X))
          = min z (minStart (hh :: ht)) := by rw [hmeq]
      _ = ((hh :: ht).map (fun x => x.start_time)).foldl min z :=
          (minStart_cons_foldl hh ht z).symm
      _ = ((merge_overlapping_activities X).map (fun x => x.start_time)).foldl min z := by
          rw [hmeq]
      _ = (X.map (fun x => x.start_time)).foldl min z := key_min z
      _ = ((x :: xs).map (fun x => x.start_time)).foldl min z := by rw [hXeq]
      _ = min z (minStart (x :: xs)) := minStart_cons_foldl x xs z
      _ = min z (minStart X) := by rw [hXeq]
    · apply eq_of_forall_max
      intro z
      calc max z (maxEnd (merge_overlapping_activities X))
          = max z (maxEnd (hh :: ht)) := by rw [hmeq]
      _ = ((hh :: ht).map (fun x => x.end_time)).foldl max z :=
          (maxEnd_cons_foldl hh ht z).symm
      _ = ((merge_overlapping_activities X).map (fun x => x.end_time)).foldl max z := by
          rw [hmeq]
      _ = (X.map (fun x => x.end_time)).foldl max z := key_max z
      _ = ((x :: xs).map (fun x => x.end_time)).foldl max z := by rw [hXeq]
      _ = max z (maxEnd (x :: xs)) := maxEnd_cons_foldl x xs z
      _ = max z (maxEnd X) := by rw [hXeq]

/-- Witness for span conservation at a concrete input. -/
theorem merge_span_conservation_witness :
    minStart (merge_overlapping_activities [wit3]) = minStart [wit3] ∧
    maxEnd (merge_overlapping_activities [wit3]) = maxEnd [wit3] :=
  merge_span_conservation [wit3] (by decide) (by decide)

/-! ### Helper lemmas about the gap filling scan -/

theorem fillScan_sublist (m : ℚ) (wsh weh : ℤ) (l : List Interval) : ∀ prev : Interval,
    l.Sublist (fillScan m wsh weh prev l) := by
  induction l with
  | nil => intro prev; exact List.nil_sublist _
  | cons curr rest ih =>
    intro prev
    simp only [fillScan]
    by_cases h1 : m ≤ ((curr.start_time - prev.end_time : ℤ) : ℚ) / 60
    · rw [if_pos h1]
      by_cases h2 : m ≤ ((min curr.start_time (dayHour prev.end_time weh) -
          max prev.end_time (dayHour prev.end_time wsh) : ℤ) : ℚ) / 60
      · rw [if_pos h2]
        exact List.Sublist.cons _ (List.Sublist.cons₂ _ (ih curr))
      · rw [if_neg h2]
        exact List.Sublist.cons₂ _ (ih curr)
    · rw [if_neg h1]
      exact List.Sublist.cons₂ _ (ih curr)

theorem fillScan_mem (m : ℚ) (wsh weh : ℤ) (l : List Interval) : ∀ prev : Interval,
    ∀ y ∈ fillScan m wsh weh prev l,
      y ∈ l ∨ (y.source = "time_gap" ∧
        m ≤ ((y.end_time - y.start_time : ℤ) : ℚ) / 60) := by
  induction l with
  | nil =>
    intro prev y hy
    simp only [fillScan] at hy
    exact absurd hy (List.not_mem_nil y)
  | cons curr rest ih =>
    intro prev y hy
    simp only [fillScan] at hy
    by_cases h1 : m ≤ ((curr.start_time - prev.end_time : ℤ) : ℚ) / 60
    · rw [if_pos h1] at hy
      by_cases h2 : m ≤ ((min curr.start_time (dayHour prev.end_time weh) -
          max prev.end_time (dayHour prev.end_time wsh) : ℤ) : ℚ) / 60
      · rw [if_pos h2] at hy
        rcases List.mem_cons.mp hy with h | h
        · right
          subst h
          exact ⟨rfl, h2⟩
        · rcases List.mem_cons.mp h with h' | h'
          · exact Or.inl (h' ▸ List.mem_cons_self curr rest)
          · rcases ih curr y h' with h'' | h''
            · exact Or.inl (List.mem_cons_of_mem curr h'')
            · exact Or.inr h''
      · rw [if_neg h2] at hy
        rcases List.mem_cons.mp hy with h | h
        · exact Or.inl (h ▸ List.mem_cons_self curr rest)
        · rcases ih curr y h with h'' | h''
          · exact Or.inl (List.mem_cons_of_mem curr h'')
          · exact Or.inr h''
    · rw [if_neg h1] at hy
      rcases List.mem_cons.mp hy with h | h
      · exact Or.inl (h ▸ List.mem_cons_self curr rest)
      · rcases ih curr y h with h'' | h''
        · exact Or.inl (List.mem_cons_of_mem curr h'')
        · exact Or.inr h''

/-- Record ending 2024-01-01 at 23:50 UTC (starting 23:00). -/
def c6a : Interval := ⟨"outlook", "late work", 1704150000, 1704153000, 50, 3⟩

/-- Record spanning 2024-01-02 from 08:00 to 09:00 UTC. -/
def c6b : Interval := ⟨"outlook", "morning", 1704182400, 1704186000, 60, 4⟩

/-- Claim C6 (confirmed): the candidate gap between a record ending at
23:50 and one starting at 08:00 the next day is clipped against the
working window of the FIRST day only; with workEndHour 17 the clipped
span (17:00 minus 23:50) is negative, so no gap record is produced at
all, and in particular none extending past 17:00 of the first day
(instant 1704128400). -/
theorem fill_gaps_window_clip :
    fill_time_gaps [c6a, c6b] 30 (9, 17) = [c6a, c6b] ∧
    (fill_time_gaps [c6a, c6b] 30 (9, 17)).all
      (fun g => !(g.source == "time_gap") ||
        decide (g.end_time ≤ dayHour c6a.end_time 17)) = true ∧
    dayHour c6a.end_time 17 = 1704128400 := by
  have h1 : fill_time_gaps [c6a, c6b] 30 (9, 17) = [c6a, c6b] := by
    simp only [fill_time_gaps, List.insertionSort, List.orderedInsert, startLE, fillSorted,
      c6a, c6b]
    norm_num
    simp only [fillScan]
    norm_num [dayHour]
  refine ⟨h1, ?_, by decide⟩
  rw [h1]
  decide

/-- Claim C7 (confirmed): for a sorted input, the gap filler returns a
supersequence of the input (every input record, in its original order),
hence an output at least as long, and every output record is either an
input record or a synthesized gap whose clipped span is at least the
minimum gap size in minutes. -/
theorem fill_gaps_preserving : ∀ (X : List Interval) (m : ℚ) (wsh weh : ℤ),
    List.Sorted startLE X →
    X.Sublist (fill_time_gaps X m (wsh, weh)) ∧
    X.length ≤ (fill_time_gaps X m (wsh, weh)).length ∧
    ∀ y ∈ fill_time_gaps X m (wsh, weh),
      y ∈ X ∨ (y.source = "time_gap" ∧
        m ≤ ((y.end_time - y.start_time : ℤ) : ℚ) / 60) := by
  intro X m wsh weh hs
  have hsub : X.Sublist (fill_time_gaps X m (wsh, weh)) := by
    unfold fill_time_gaps
    by_cases hlen : X.length < 2
    · rw [if_pos hlen]
    · rw [if_neg hlen, hs.insertionSort_eq]
      cases X with
      | nil => exact List.nil_sublist _
      | cons a rest =>
        simp only [fillSorted]
        exact List.Sublist.cons₂ _ (fillScan_sublist m wsh weh rest a)
  refine ⟨hsub, hsub.length_le, ?_⟩
  intro y hy
  unfold fill_time_gaps at hy
  by_cases hlen : X.length < 2
  · rw [if_pos hlen] at hy
    exact Or.inl hy
  · rw [if_neg hlen, hs.insertionSort_eq] at hy
    cases X with
    | nil => exact absurd hy (List.not_mem_nil y)
    | cons a rest =>
      simp only [fillSorted] at hy
      rcases List.mem_cons.mp hy with h | h
      · exact Or.inl (h ▸ List.mem_cons_self a rest)
      · rcases fillScan_mem m wsh weh rest a y h with h' | h'
        · exact Or.inl (List.mem_cons_of_mem a h')
        · exact Or.inr h'

/-- Record spanning 08:00 to 09:00 UTC on 2024-01-01. -/
def w7a : Interval := ⟨"outlook", "standup", 1704096000, 1704099600, 60, 12⟩

/-- Record spanning 12:00 to 13:00 UTC on 2024-01-01. -/
def w7b : Interval := ⟨"github", "review", 1704110400, 1704114000, 60, 13⟩

/-- Witness for the gap filler guarantees at a concrete sorted input. -/
theorem fill_gaps_preserving_witness :
    ([w7a, w7b] : List Interval).Sublist (fill_time_gaps [w7a, w7b] 30 (9, 17)) ∧
    ([w7a, w7b] : List Interval).length ≤ (fill_time_gaps [w7a, w7b] 30 (9, 17)).length ∧
    ∀ y ∈ fill_time_gaps [w7a, w7b] 30 (9, 17),
      y ∈ ([w7a, w7b] : List Interval) ∨ (y.source = "time_gap" ∧
        (30 : ℚ) ≤ ((y.end_time - y.start_time : ℤ) : ℚ) / 60) :=
  fill_gaps_preserving [w7a, w7b] 30 9 17 (by decide)

/-! ### Day grouping -/

theorem addDay_inv (days : List (String × List Interval)) (a : Interval) :
    ∀ k : String, (∀ p ∈ days, ∀ x ∈ p.2, dayStr x.start_time = p.1) →
    k = dayStr a.start_time →
    ∀ p ∈ addDay days k a, ∀ x ∈ p.2, dayStr x.start_time = p.1 := by
  induction days with
  | nil =>
    intro k _ hk p hp x hx
    simp only [addDay, List.mem_singleton] at hp
    subst hp
    simp only [List.mem_singleton] at hx
    subst hx
    exact hk.symm
  | cons q rest ih =>
    intro k hInv hk p hp x hx
    obtain ⟨k', l⟩ := q
    simp only [addDay] at hp
    by_cases he : k' = k
    · rw [if_pos he] at hp
      rcases List.mem_cons.mp hp with h | h
      · subst h
        rcases List.mem_append.mp hx with h' | h'
        · exact hInv (k', l) (List.mem_cons_self _ _) x h'
        · simp only [List.mem_singleton] at h'
          subst h'
          rw [← hk, he]
      · exact hInv p (List.mem_cons_of_mem _ h) x hx
    · rw [if_neg he] at hp
      rcases List.mem_cons.mp hp with h | h
      · subst h
        exact hInv (k', l) (List.mem_cons_self _ _) x hx
      · exact ih k (fun p hp => hInv p (List.mem_cons_of_mem _ hp)) hk p h x hx

theorem groupFold_inv (X : List Interval) : ∀ days : List (String × List Interval),
    (∀ p ∈ days, ∀ x ∈ p.2, dayStr x.start_time = p.1) →
    ∀ p ∈ X.foldl (fun d a => addDay d (dayStr a.start_time) a) days,
      ∀ x ∈ p.2, dayStr x.start_time = p.1 := by
  induction X with
  | nil => intro days h; exact h
  | cons a X ih =>
    intro days h
    simp only [List.foldl_cons]
    exact ih _ (addDay_inv days a (dayStr a.start_time) h rfl)

/-- The record of the day attribution example: it starts 2024-01-01 at
23:00 UTC and ends 2024-01-02 at 01:00 UTC, spanning midnight. -/
def c8ex : Interval := ⟨"github", "pr", 1704150000, 1704157200, 120, 5⟩

/-- Claim C8 (confirmed): every record is bucketed under the YYYY-MM-DD
day string of its start_time (reporting time zone UTC), with no
splitting across days; in particular the record spanning
2024-01-01T23:00Z to 2024-01-02T01:00Z lands wholly in the single
bucket 2024-01-01 although its end falls on 2024-01-02. -/
theorem group_by_day_attribution :
    (∀ X : List Interval, ∀ p ∈ group_activities_by_day X,
      ∀ x ∈ p.2, p.1 = dayStr x.start_time) ∧
    group_activities_by_day [c8ex] = [("2024-01-01", [c8ex])] ∧
    dayStr c8ex.start_time = "2024-01-01" ∧ dayStr c8ex.end_time = "2024-01-02" := by
  refine ⟨?_, by decide, by decide, by decide⟩
  intro X p hp x hx
  unfold group_activities_by_day at hp
  rcases List.mem_map.mp hp with ⟨q, hq, hpq⟩
  have hinv := groupFold_inv X []
    (fun p hp => absurd hp (List.not_mem_nil p)) q hq
  subst hpq
  have hx' : x ∈ q.2 := (List.mem_insertionSort startLE).mp hx
  exact (hinv x hx').symm

/-- Witness for the day attribution at a concrete input: the bucket of
the midnight spanning record in the grouped output is keyed by the day
string of its start. -/
theorem group_by_day_attribution_witness :
    ("2024-01-01", [c8ex]) ∈ group_activities_by_day [c8ex] ∧
    ("2024-01-01" : String) = dayStr c8ex.start_time := by
  have hm : ("2024-01-01", [c8ex]) ∈ group_activities_by_day [c8ex] := by decide
  exact ⟨hm, group_by_day_attribution.1 [c8ex] ("2024-01-01", [c8ex]) hm c8ex (by decide)⟩

/-! ### Submission filtering -/

/-- Entry with an empty string ticket: the Python falsy test skips it,
although it is neither absent nor the sentinel unknown, and its duration
(5 minutes) is well above one minute. -/
def e0 : TimeEntry := ⟨some "", 5, none, none, 0⟩

/-- Claim C9 (corrected): this entry has a PRESENT ticket field that is
not the sentinel unknown and a duration of 300 seconds, so under the
claim it would be submitted; the code skips it (log_work is never
called) because the Python truthiness test also rejects the empty
string. -/
theorem submit_skip_counterexample :
    (submit_time_entries (fun _ => true) [e0]).2 = [] ∧
    (submit_time_entries (fun _ => true) [e0]).1.skipped = 1 ∧
    e0.jira_issue ≠ none ∧ e0.jira_issue ≠ some "unknown" ∧
    ¬ intTrunc (e0.duration_minutes * 60) < 60 := by
  have h : (submit_time_entries (fun _ => true) [e0]).2 = [] ∧
      (submit_time_entries (fun _ => true) [e0]).1.skipped = 1 := by
    simp only [submit_time_entries, e0, intTrunc]
    norm_num
  refine ⟨h.1, h.2, by decide, by decide, ?_⟩
  simp only [e0, intTrunc]
  norm_num

/-- Claim C9 (amended): the submission step invokes log_work exactly on
the entries whose ticket field is present, non empty and different from
the sentinel unknown, and whose duration truncates to at least 60
seconds; every other entry is counted as skipped, and the skipped count
is exactly the number of such entries. -/
theorem submit_skip_amended : ∀ (logOk : TimeEntry → Bool) (entries : List TimeEntry),
    (submit_time_entries logOk entries).2 =
      entries.filter (fun e => ! decide (entrySkipped e)) ∧
    (submit_time_entries logOk entries).1.skipped =
      (entries.filter (fun e => decide (entrySkipped e))).length := by
  intro logOk entries
  induction entries with
  | nil => exact ⟨rfl, rfl⟩
  | cons e rest ih =>
    simp only [submit_time_entries]
    by_cases h1 : e.jira_issue = none ∨ e.jira_issue = some "" ∨ e.jira_issue = some "unknown"
    · rw [if_pos h1]
      have hsk : entrySkipped e := by unfold entrySkipped; tauto
      constructor
      · rw [List.filter_cons_of_neg (by simp [hsk])]
        exact ih.1
      · rw [List.filter_cons_of_pos (by simp [hsk]), List.length_cons, ih.2]
    · rw [if_neg h1]
      by_cases h2 : intTrunc (e.duration_minutes * 60) < 60
      · rw [if_pos h2]
        have hsk : entrySkipped e := by unfold entrySkipped; tauto
        constructor
        · rw [List.filter_cons_of_neg (by simp [hsk])]
          exact ih.1
        · rw [List.filter_cons_of_pos (by simp [hsk]), List.length_cons, ih.2]
      · rw [if_neg h2]
        have hns : ¬ entrySkipped e := by unfold entrySkipped; tauto
        by_cases h3 : logOk e
        · rw [if_pos h3]
          constructor
          · rw [List.filter_cons_of_pos (by simp [hns]), ih.1]
          · rw [List.filter_cons_of_neg (by simp [hns]), ih.2]
        · rw [if_neg h3]
          constructor
          · rw [List.filter_cons_of_pos (by simp [hns]), ih.1]
          · rw [List.filter_cons_of_neg (by simp [hns]), ih.2]

/-! ### Date range filtering -/

/-- Claim C10 (confirmed): the date range filter keeps exactly the
records entirely inside the range, membership characterization: a record
is in the output iff it is in the input, starts no earlier than
start_date and ends no later than end_date; partially overlapping
records are dropped whole, never clipped. -/
theorem filter_by_date_membership : ∀ (X : List Interval) (s e : ℤ) (a : Interval),
    a ∈ filter_activities_by_date X s e ↔
      a ∈ X ∧ s ≤ a.start_time ∧ a.end_time ≤ e := by
  intro X s e a
  simp [filter_activities_by_date, List.mem_filter, and_assoc]

/-- A record inside the range used by the filter witness. -/
def c10a : Interval := ⟨"w", "in range", 10, 20, 1, 8⟩

/-- Witness for the filter characterization at a concrete input. -/
theorem filter_by_date_membership_witness :
    c10a ∈ filter_activities_by_date [c10a] 0 100 :=
  (filter_by_date_membership [c10a] 0 100 c10a).mpr
    ⟨List.mem_singleton.mpr rfl, by decide, by decide⟩

end Chronolog
